import Mathlib

/-!
# Verification of the i18n Project Structure Resolver

A shallow embedding of `src/i18nProjectManager.ts` (class `I18nProjectManager`):
language-tag recognition and normalization, project-structure detection,
sibling-language enumeration, target-path generation and collision resolution.

Modelling conventions:
* Strings are Lean `String`s; all computation happens on their `List Char` data.
* The anchored regex
  `/^(?<language>[a-z]{2,3})(-(?<script>[A-Z][a-z]{3}))?(-(?<region>[A-Z]{2,3}|[0-9]{3}))?$/i`
  is embedded by splitting on `'-'` and testing each part: under the `i` flag the
  character classes are ASCII letters of either case, so a match is exactly a
  2–3-letter part, optionally followed by a 4-letter part (script), optionally
  followed by a 2–3-letter or 3-digit part (region).  Because the subtag shapes
  have pairwise incompatible forms, this decomposition is equivalent to the
  backtracking regex match, including which named group captures which part.
* File paths are lists of path components (POSIX-style segments without
  separators); `path.dirname` is `dropLast`, `path.basename` is the last
  component, `path.join dir name` is `dir ++ [name]`.  Each argument of
  `path.join` is treated as a single literal segment.
* The filesystem is passed explicitly: a directory listing function
  (`none` models a thrown `readdirSync` error) for the enumerator, and the
  finite list of existing file paths (`fs.existsSync`) for collision resolution.
-/

namespace I18n

/-! ## Language-tag grammar (the `languageCodeRegex`) -/

/-- Split a character list on `'-'` (the hyphens of the tag grammar),
keeping empty parts, like `String.split` on a single separator. -/
def splitOnHyphen : List Char → List (List Char)
  | [] => [[]]
  | c :: cs =>
    if c = '-' then [] :: splitOnHyphen cs
    else
      match splitOnHyphen cs with
      | [] => [[c]]
      | p :: ps => (c :: p) :: ps

/-- Join parts with `'-'`, the inverse of `splitOnHyphen` on hyphen-free parts. -/
def joinHyphen : List (List Char) → List Char
  | [] => []
  | [p] => p
  | p :: ps => p ++ '-' :: joinHyphen ps

/-- `(?<language>[a-z]{2,3})` under the `i` flag: 2–3 ASCII letters. -/
def isLanguagePart (p : List Char) : Bool :=
  (p.length = 2 || p.length = 3) && p.all Char.isAlpha

/-- `(?<script>[A-Z][a-z]{3})` under the `i` flag: exactly 4 ASCII letters. -/
def isScriptPart (p : List Char) : Bool :=
  p.length = 4 && p.all Char.isAlpha

/-- `(?<region>[A-Z]{2,3}|[0-9]{3})` under the `i` flag:
2–3 ASCII letters or exactly 3 digits. -/
def isRegionPart (p : List Char) : Bool :=
  ((p.length = 2 || p.length = 3) && p.all Char.isAlpha)
    || (p.length = 3 && p.all Char.isDigit)

/-- The named capture groups of a successful `languageCodeRegex` match. -/
structure TagParts where
  language : List Char
  script : Option (List Char)
  region : Option (List Char)
deriving DecidableEq, Repr

/-- Anchored match of `languageCodeRegex` against a character list, returning
the captured groups.  The hyphen-separated parts determine the groups uniquely
because the script shape (4 letters) and region shapes (2–3 letters / 3 digits)
are mutually exclusive. -/
def parseTag (s : List Char) : Option TagParts :=
  match splitOnHyphen s with
  | [l] => if isLanguagePart l then some ⟨l, none, none⟩ else none
  | [l, x] =>
    if isLanguagePart l then
      if isScriptPart x then some ⟨l, some x, none⟩
      else if isRegionPart x then some ⟨l, none, some x⟩
      else none
    else none
  | [l, x, y] =>
    if isLanguagePart l && isScriptPart x && isRegionPart y then
      some ⟨l, some x, some y⟩
    else none
  | _ => none

/-- `languageCodeRegex.test` on a string. -/
def languageCodeTest (s : String) : Bool :=
  (parseTag s.data).isSome

/-! ## `normalizeLanguageCode` and `validateLanguageCode` -/

/-- JS `script.charAt(0).toUpperCase() + script.slice(1).toLowerCase()`
(for ASCII letters `String.prototype.toUpperCase`/`toLowerCase` agree with
`Char.toUpper`/`Char.toLower`). -/
def capitalizeScript : List Char → List Char
  | [] => []
  | c :: cs => c.toUpper :: cs.map Char.toLower

/-- Assemble the normalized tag from the captured groups, as the source does:
lowercased language, then optionally `-` + capitalized script, then optionally
`-` + uppercased region. -/
def normalizeParts (t : TagParts) : List Char :=
  t.language.map Char.toLower
    ++ (match t.script with
        | none => []
        | some s => '-' :: capitalizeScript s)
    ++ (match t.region with
        | none => []
        | some r => '-' :: r.map Char.toUpper)

/-- `normalizeLanguageCode`: canonicalize a matching tag, return non-matching
input unchanged. -/
def normalizeLanguageCode (code : String) : String :=
  match parseTag code.data with
  | none => code
  | some t => String.mk (normalizeParts t)

/-- `validateLanguageCode`: `!!code && languageCodeRegex.test(code)`. -/
def validateLanguageCode (code : String) : Bool :=
  !code.isEmpty && languageCodeTest code

/-! ## Path model

A file path is a list of POSIX path components.  `path.dirname` drops the last
component (the model of Node's `"."` for a bare file name is the empty list,
whose `basename` is `""` — like `"."`, it never matches the tag grammar).
-/

abbrev FsPath := List String

/-- `path.dirname`. -/
def dirname (p : FsPath) : FsPath := p.dropLast

/-- `path.basename` (no suffix argument). -/
def basename (p : FsPath) : String := p.getLast?.getD ""

/-- The suffix-stripping of `path.basename(p, ext)` on a bare name: one
trailing occurrence of `ext` is removed, except that a name equal to `ext`
itself is returned whole (Node returns `".json"` for
`basename("/a/.json", ".json")`). -/
def stripExt (name ext : String) : String :=
  if name != ext && !ext.isEmpty && ext.data.isSuffixOf name.data then
    String.mk (name.data.take (name.data.length - ext.data.length))
  else name

/-- `path.extname` on a file name: the segment from the last `'.'` to the end,
or `""` when there is no dot or the only dot is the leading character
(degenerate all-dot names such as `".."` follow the same simple rule). -/
def extnameOf (name : String) : String :=
  if (name.data.reverse.takeWhile (· ≠ '.')).length + 1 < name.data.length then
    String.mk ('.' :: (name.data.reverse.takeWhile (· ≠ '.')).reverse)
  else ""

example : extnameOf "fr.json" = ".json" := by decide
example : extnameOf "en" = "" := by decide
example : extnameOf ".json" = "" := by decide
example : extnameOf "a.b.c" = ".c" := by decide
example : stripExt "fr.json" ".json" = "fr" := by decide
example : stripExt ".json" ".json" = ".json" := by decide
example : stripExt "a.json.json" ".json" = "a.json" := by decide

/-! ## `detectProjectStructure` -/

inductive ProjectStructureType where
  | FolderBased
  | FileBased
  | Unknown
deriving DecidableEq, Repr

structure ProjectStructureInfo where
  type : ProjectStructureType
  basePath : FsPath
  sourceLanguage : Option String
deriving DecidableEq, Repr

/-- `detectProjectStructure`: classify by the parent directory name first,
then by the file stem, else `Unknown`. -/
def detectProjectStructure (sourceFilePath : FsPath) : ProjectStructureInfo :=
  let sourceDir := dirname sourceFilePath
  let sourceFileName := stripExt (basename sourceFilePath) ".json"
  let parentDirName := basename sourceDir
  if languageCodeTest parentDirName then
    ⟨.FolderBased, dirname sourceDir, some parentDirName⟩
  else if languageCodeTest sourceFileName then
    ⟨.FileBased, sourceDir, some sourceFileName⟩
  else
    ⟨.Unknown, sourceDir, none⟩

/-- The target path computed by `generateTargetFilePath` before the
`getUniqueFilePath` collision resolution (the folder-based `mkdirSync` side
effect does not influence the computed path). -/
def generateTargetFilePathRaw (sourceFilePath : FsPath) (targetLanguage : String) :
    FsPath :=
  let structureInfo := detectProjectStructure sourceFilePath
  let sourceFileName := stripExt (basename sourceFilePath) ".json"
  match structureInfo.type with
  | .FolderBased => structureInfo.basePath ++ [targetLanguage, sourceFileName ++ ".json"]
  | .FileBased => structureInfo.basePath ++ [targetLanguage ++ ".json"]
  | .Unknown => dirname sourceFilePath ++ [sourceFileName ++ "." ++ targetLanguage ++ ".json"]

/-- Modelled from the spec: the §4.4 per-kind target-path scheme stated with
the source file's own extension — `basePath/targetLanguage/(base name +
extension)` for folder-based, `basePath/{targetLanguage}{sourceExtension}` for
file-based, `basePath/{sourceStem}.{targetLanguage}{sourceExtension}` for
unknown. -/
def specTargetScheme (sourceFilePath : FsPath) (targetLanguage : String) : FsPath :=
  let info := detectProjectStructure sourceFilePath
  let name := basename sourceFilePath
  let ext := extnameOf name
  let stem := stripExt name ext
  match info.type with
  | .FolderBased => info.basePath ++ [targetLanguage, name]
  | .FileBased => info.basePath ++ [targetLanguage ++ ext]
  | .Unknown => info.basePath ++ [stem ++ "." ++ targetLanguage ++ ext]

example :
    detectProjectStructure ["locales", "en", "common.json"]
      = ⟨.FolderBased, ["locales"], some "en"⟩ := by decide
example :
    detectProjectStructure ["i18n", "en.json"]
      = ⟨.FileBased, ["i18n"], some "en"⟩ := by decide
example :
    detectProjectStructure ["translations", "messages.json"]
      = ⟨.Unknown, ["translations"], none⟩ := by decide
example :
    generateTargetFilePathRaw ["locales", "en", "common.json"] "fr"
      = ["locales", "fr", "common.json"] := by decide
example :
    generateTargetFilePathRaw ["i18n", "en.json"] "fr" = ["i18n", "fr.json"] := by
  decide
example :
    generateTargetFilePathRaw ["translations", "messages.json"] "fr"
      = ["translations", "messages.fr.json"] := by decide

example : normalizeLanguageCode "ZH-hans-CN" = "zh-Hans-CN" := by decide
example : normalizeLanguageCode "invalid-code" = "invalid-code" := by decide
example : normalizeLanguageCode "zh-HANS-cn" = "zh-Hans-CN" := by decide
example : normalizeLanguageCode "EN" = "en" := by decide
example : validateLanguageCode "en-GB" = true := by decide
example : validateLanguageCode "" = false := by decide
example : validateLanguageCode "a" = false := by decide
example : validateLanguageCode "ab-cde-fgh" = false := by decide
example : languageCodeTest "en-419" = true := by decide
example : languageCodeTest "i18n" = false := by decide

/-! ## Helper lemmas -/

theorem languageCodeTest_ne_nil {s : String} (h : languageCodeTest s = true) :
    s.data ≠ [] := by
  intro hnil
  unfold languageCodeTest at h
  rw [hnil] at h
  exact absurd h (by decide)

theorem data_ne_nil_of_ne_empty {s : String} (h : s ≠ "") : s.data ≠ [] := by
  intro hnil
  exact h (by cases s; simp_all)

theorem stripExt_append_json (s : String) (h : s.data ≠ []) :
    stripExt (s ++ ".json") ".json" = s := by
  have hd : (s ++ ".json").data = s.data ++ ('.' :: 'j' :: 's' :: 'o' :: 'n' :: []) := by
    simp
  have hne : (s ++ ".json") ≠ ".json" := by
    intro he
    have := congrArg (fun t => t.data.length) he
    simp [hd] at this
    exact h (List.eq_nil_of_length_eq_zero this)
  unfold stripExt
  rw [if_pos]
  · rw [hd]
    have : (s.data ++ ('.' :: 'j' :: 's' :: 'o' :: 'n' :: [])).length - (".json").data.length
        = s.data.length := by simp
    rw [this, List.take_left]
  · rw [Bool.and_eq_true, Bool.and_eq_true]
    refine ⟨⟨by simp [bne_iff_ne, hne], by decide⟩, ?_⟩
    rw [List.isSuffixOf_iff_suffix, hd]
    exact List.suffix_append _ _

theorem extnameOf_append_json (s : String) (h : s.data ≠ []) :
    extnameOf (s ++ ".json") = ".json" := by
  have hd : (s ++ ".json").data = s.data ++ ('.' :: 'j' :: 's' :: 'o' :: 'n' :: []) := by
    simp
  have hrev : (s ++ ".json").data.reverse
      = 'n' :: 'o' :: 's' :: 'j' :: '.' :: s.data.reverse := by
    rw [hd, List.reverse_append]
    rfl
  have htw : (('n' : Char) :: 'o' :: 's' :: 'j' :: '.' :: s.data.reverse).takeWhile
      (· ≠ '.') = ['n', 'o', 's', 'j'] := rfl
  unfold extnameOf
  rw [hrev, htw, if_pos]
  · rfl
  · rw [hd]
    simp
    exact Nat.pos_of_ne_zero (fun h0 => h (List.eq_nil_of_length_eq_zero h0))

theorem dirname_append_one (d : FsPath) (a : String) : dirname (d ++ [a]) = d := by
  simp [dirname]

theorem dirname_append_two (d : FsPath) (a b : String) :
    dirname (d ++ [a, b]) = d ++ [a] := by
  have : d ++ [a, b] = (d ++ [a]) ++ [b] := by simp
  rw [this, dirname_append_one]

theorem basename_append_one (d : FsPath) (a : String) : basename (d ++ [a]) = a := by
  simp [basename]

theorem detect_eq_folder (q : FsPath)
    (h : languageCodeTest (basename (dirname q)) = true) :
    detectProjectStructure q
      = ⟨.FolderBased, dirname (dirname q), some (basename (dirname q))⟩ := by
  simp only [detectProjectStructure]
  rw [if_pos h]

theorem detect_eq_file (q : FsPath)
    (h1 : ¬languageCodeTest (basename (dirname q)) = true)
    (h2 : languageCodeTest (stripExt (basename q) ".json") = true) :
    detectProjectStructure q
      = ⟨.FileBased, dirname q, some (stripExt (basename q) ".json")⟩ := by
  simp only [detectProjectStructure]
  rw [if_neg h1, if_pos h2]

theorem detect_eq_unknown (q : FsPath)
    (h1 : ¬languageCodeTest (basename (dirname q)) = true)
    (h2 : ¬languageCodeTest (stripExt (basename q) ".json") = true) :
    detectProjectStructure q = ⟨.Unknown, dirname q, none⟩ := by
  simp only [detectProjectStructure]
  rw [if_neg h1, if_neg h2]

/-! ## Claims about detection and path generation -/

/-- **C3.** Whenever the immediate parent directory name matches the
language-tag grammar, `detectProjectStructure` classifies the path as
`FolderBased`, with `basePath` the directory above that parent and
`sourceLanguage` the parent directory name with original casing — even when
the file stem also matches (e.g. `locales/en/en.json`), never `FileBased`. -/
theorem detect_folder_priority (p : FsPath)
    (h : languageCodeTest (basename (dirname p)) = true) :
    detectProjectStructure p
        = ⟨.FolderBased, dirname (dirname p), some (basename (dirname p))⟩ ∧
      detectProjectStructure ["locales", "en", "en.json"]
        = ⟨.FolderBased, ["locales"], some "en"⟩ :=
  ⟨detect_eq_folder p h, by decide⟩

theorem detect_folder_priority_witness :
    detectProjectStructure ["locales", "en", "common.json"]
      = ⟨.FolderBased, ["locales"], some "en"⟩ := by
  have := detect_folder_priority ["locales", "en", "common.json"] (by decide)
  exact this.1

/-- **C9.** The detection result round-trips: rebuilding a path from
`basePath` and `sourceLanguage` in the detected convention
(`basePath/sourceLanguage/file` for folder-based,
`basePath/sourceLanguage.json` for file-based) and re-running the detector
yields the same `kind`. -/
theorem detect_roundtrip (p : FsPath) :
    ((detectProjectStructure p).type = ProjectStructureType.FolderBased →
      ∀ f : String,
        (detectProjectStructure
            ((detectProjectStructure p).basePath
              ++ [(detectProjectStructure p).sourceLanguage.getD "", f])).type
          = ProjectStructureType.FolderBased) ∧
    ((detectProjectStructure p).type = ProjectStructureType.FileBased →
      (detectProjectStructure
          ((detectProjectStructure p).basePath
            ++ [(detectProjectStructure p).sourceLanguage.getD "" ++ ".json"])).type
        = ProjectStructureType.FileBased) := by
  by_cases h1 : languageCodeTest (basename (dirname p)) = true
  · have hdet := detect_eq_folder p h1
    refine ⟨fun _ f => ?_, fun hty => ?_⟩
    · rw [hdet]
      simp only [Option.getD_some]
      have hq : languageCodeTest
          (basename (dirname (dirname (dirname p) ++ [basename (dirname p), f])))
            = true := by
        rw [dirname_append_two, basename_append_one]
        exact h1
      rw [detect_eq_folder _ hq]
    · rw [hdet] at hty
      exact ProjectStructureType.noConfusion hty
  · by_cases h2 : languageCodeTest (stripExt (basename p) ".json") = true
    · have hdet := detect_eq_file p h1 h2
      refine ⟨fun hty _ => ?_, fun _ => ?_⟩
      · rw [hdet] at hty
        exact ProjectStructureType.noConfusion hty
      · rw [hdet]
        simp only [Option.getD_some]
        have hq1 : ¬languageCodeTest
            (basename (dirname (dirname p ++ [stripExt (basename p) ".json" ++ ".json"])))
              = true := by
          rw [dirname_append_one]
          exact h1
        have hq2 : languageCodeTest
            (stripExt (basename (dirname p ++ [stripExt (basename p) ".json" ++ ".json"]))
              ".json") = true := by
          rw [basename_append_one,
            stripExt_append_json _ (languageCodeTest_ne_nil h2)]
          exact h2
        rw [detect_eq_file _ hq1 hq2]
    · have hdet := detect_eq_unknown p h1 h2
      refine ⟨fun hty => ?_, fun hty => ?_⟩
      · rw [hdet] at hty
        exact ProjectStructureType.noConfusion hty
      · rw [hdet] at hty
        exact ProjectStructureType.noConfusion hty

theorem detect_roundtrip_witness :
    (detectProjectStructure
        ((detectProjectStructure ["locales", "en", "common.json"]).basePath
          ++ [(detectProjectStructure ["locales", "en", "common.json"]).sourceLanguage.getD "",
            "app.json"])).type = ProjectStructureType.FolderBased :=
  (detect_roundtrip ["locales", "en", "common.json"]).1 (by decide) "app.json"

/-- **C1 (amended).** For source files named `stem.json` (the only files the
translate command routes), the pre-collision target path follows exactly the
per-kind scheme of the spec, and the supplied target language appears in the
result verbatim; for other extensions the generator appends `.json` instead of
the source extension (see the counterexample). -/
theorem generateTargetFilePath_scheme (src : FsPath) (stem0 tl : String)
    (hname : basename src = stem0 ++ ".json") (hne : stem0 ≠ "") :
    generateTargetFilePathRaw src tl = specTargetScheme src tl ∧
    ∃ c ∈ generateTargetFilePathRaw src tl, tl.data <:+: c.data := by
  have hdat : stem0.data ≠ [] := data_ne_nil_of_ne_empty hne
  have hstrip : stripExt (stem0 ++ ".json") ".json" = stem0 := stripExt_append_json _ hdat
  have hext : extnameOf (stem0 ++ ".json") = ".json" := extnameOf_append_json _ hdat
  by_cases h1 : languageCodeTest (basename (dirname src)) = true
  · have hdet := detect_eq_folder src h1
    constructor
    · simp only [generateTargetFilePathRaw, specTargetScheme, hdet, hname, hstrip, hext]
    · refine ⟨tl, ?_, List.infix_refl _⟩
      simp only [generateTargetFilePathRaw, hdet]
      exact List.mem_append_right _ (List.mem_cons_self _ _)
  · by_cases h2 : languageCodeTest (stripExt (basename src) ".json") = true
    · have hdet := detect_eq_file src h1 h2
      constructor
      · simp only [generateTargetFilePathRaw, specTargetScheme, hdet, hname, hstrip, hext]
      · refine ⟨tl ++ ".json", ?_, ⟨[], ".json".data, by simp⟩⟩
        simp only [generateTargetFilePathRaw, hdet]
        exact List.mem_append_right _ (List.mem_cons_self _ _)
    · have hdet := detect_eq_unknown src h1 h2
      constructor
      · simp only [generateTargetFilePathRaw, specTargetScheme, hdet, hname, hstrip, hext]
      · refine ⟨stem0 ++ "." ++ tl ++ ".json", ?_,
          ⟨(stem0 ++ ".").data, ".json".data, by simp⟩⟩
        simp only [generateTargetFilePathRaw, hdet, hname, hstrip]
        exact List.mem_append_right _ (List.mem_cons_self _ _)

theorem generateTargetFilePath_scheme_witness :
    generateTargetFilePathRaw ["locales", "en", "common.json"] "fr"
        = specTargetScheme ["locales", "en", "common.json"] "fr" ∧
      ∃ c ∈ generateTargetFilePathRaw ["locales", "en", "common.json"] "fr",
        "fr".data <:+: c.data :=
  generateTargetFilePath_scheme ["locales", "en", "common.json"] "common" "fr"
    (by decide) (by decide)

/-- **C1, counterexample to the claim as stated.** For the extensionless
source file `i18n/en` (detected `FileBased`), the generator produces
`i18n/fr.json`, not the claimed `basePath/{targetLanguage}{sourceExtension}`
(which is `i18n/fr`, since the source extension is empty): the code always
appends `.json`, regardless of the source extension. -/
theorem generateTargetFilePath_extension_counterexample :
    (detectProjectStructure ["i18n", "en"]).type = ProjectStructureType.FileBased ∧
    generateTargetFilePathRaw ["i18n", "en"] "fr" = ["i18n", "fr.json"] ∧
    specTargetScheme ["i18n", "en"] "fr" = ["i18n", "fr"] ∧
    generateTargetFilePathRaw ["i18n", "en"] "fr"
      ≠ specTargetScheme ["i18n", "en"] "fr" := by
  refine ⟨by decide, by decide, by decide, by decide⟩

/-! ## `getUniqueFilePath` (collision resolution)

`fs.existsSync` is modelled by membership in the finite list `files` of
currently existing paths.
-/

/-- The decimal digit characters of a natural number, most significant first —
the model of the JS template interpolation `${counter}`.  The fuel argument of
the auxiliary function is structural only; `fuel > n` always suffices. -/
def decimalDigitsAux : Nat → Nat → List Char
  | 0, _ => []
  | fuel + 1, n =>
    if n < 10 then [Char.ofNat (48 + n)]
    else decimalDigitsAux fuel (n / 10) ++ [Char.ofNat (48 + n % 10)]

def decimalDigits (n : Nat) : List Char := decimalDigitsAux (n + 1) n

def natToString (n : Nat) : String := String.mk (decimalDigits n)

example : natToString 0 = "0" := by decide
example : natToString 1 = "1" := by decide
example : natToString 42 = "42" := by decide
example : natToString 120 = "120" := by decide

theorem char_toNat_ofNat_of_lt {n : Nat} (h : n < 55296) :
    (Char.ofNat n).toNat = n := by
  rw [Char.ofNat, dif_pos (Or.inl h)]
  rfl

theorem decimalDigitsAux_foldl :
    ∀ fuel n, n < fuel → ∀ a : Nat,
      (decimalDigitsAux fuel n).foldl (fun a c => a * 10 + (c.toNat - 48)) a
        = a * 10 ^ (decimalDigitsAux fuel n).length + n := by
  intro fuel
  induction fuel with
  | zero => intro n h; omega
  | succ fuel ih =>
    intro n h a
    by_cases h10 : n < 10
    · simp only [decimalDigitsAux]
      rw [if_pos h10]
      simp only [List.foldl_cons, List.foldl_nil, List.length_singleton]
      rw [char_toNat_ofNat_of_lt (by omega)]
      simp [Nat.pow_one]
    · simp only [decimalDigitsAux]
      rw [if_neg h10]
      rw [List.foldl_append]
      have hlt : n / 10 < fuel :=
        Nat.lt_of_lt_of_le (Nat.div_lt_self (by omega) (by decide)) (by omega)
      rw [ih (n / 10) hlt a]
      simp only [List.foldl_cons, List.foldl_nil, List.length_append,
        List.length_singleton]
      rw [char_toNat_ofNat_of_lt (by omega)]
      have hsub : 48 + n % 10 - 48 = n % 10 := by omega
      rw [hsub, pow_succ]
      calc (a * 10 ^ (decimalDigitsAux fuel (n / 10)).length + n / 10) * 10 + n % 10
          = a * (10 ^ (decimalDigitsAux fuel (n / 10)).length * 10)
              + (n / 10 * 10 + n % 10) := by ring
        _ = a * (10 ^ (decimalDigitsAux fuel (n / 10)).length * 10) + n := by
            rw [show n / 10 * 10 + n % 10 = n from by omega]

theorem decimalDigits_injective {m n : Nat} (h : decimalDigits m = decimalDigits n) :
    m = n := by
  have hm := decimalDigitsAux_foldl (m + 1) m (by omega) 0
  have hn := decimalDigitsAux_foldl (n + 1) n (by omega) 0
  unfold decimalDigits at h
  rw [h] at hm
  simp only [Nat.zero_mul] at hm hn
  omega

/-- The probe name ``` `${baseName} (${counter})${ext}` ``` of the collision
resolver. -/
def mkNumberedName (baseName ext : String) (counter : Nat) : String :=
  baseName ++ " (" ++ natToString counter ++ ")" ++ ext

theorem mkNumberedName_inj (baseName ext : String) {m n : Nat}
    (h : mkNumberedName baseName ext m = mkNumberedName baseName ext n) : m = n := by
  unfold mkNumberedName natToString at h
  have hd := congrArg String.data h
  simp only [String.data_append, List.append_assoc] at hd
  have hd2 := List.append_cancel_left hd
  have hd3 := List.append_cancel_left hd2
  exact decimalDigits_injective (List.append_cancel_right hd3)

/-- The do-while probe loop of `getUniqueFilePath`, with structural fuel; the
fuel is never exhausted when it starts at `files.length + 1` (see
`exists_free_candidate`), so the fuel-0 fallback is unreachable. -/
def getUniqueFilePathLoop (files : List FsPath) (dir : FsPath) (baseName ext : String) :
    Nat → Nat → FsPath
  | 0, counter => dir ++ [mkNumberedName baseName ext counter]
  | fuel + 1, counter =>
    if dir ++ [mkNumberedName baseName ext counter] ∈ files then
      getUniqueFilePathLoop files dir baseName ext fuel (counter + 1)
    else dir ++ [mkNumberedName baseName ext counter]

/-- `getUniqueFilePath`: return the path unchanged when it does not exist,
else probe `name (1)`, `name (2)`, … before the extension until a free path
is found. -/
def getUniqueFilePath (files : List FsPath) (filePath : FsPath) : FsPath :=
  if filePath ∈ files then
    getUniqueFilePathLoop files (dirname filePath)
      (stripExt (basename filePath) (extnameOf (basename filePath)))
      (extnameOf (basename filePath)) (files.length + 1) 1
  else filePath

/-- The `k`-th probed candidate of the collision resolver for `filePath`. -/
def numberedCandidate (filePath : FsPath) (k : Nat) : FsPath :=
  dirname filePath
    ++ [mkNumberedName (stripExt (basename filePath) (extnameOf (basename filePath)))
        (extnameOf (basename filePath)) k]

theorem getUniqueFilePathLoop_spec (files : List FsPath) (dir : FsPath)
    (bn ex : String) :
    ∀ fuel counter : Nat,
      (∃ k, counter ≤ k ∧ k < counter + fuel
          ∧ dir ++ [mkNumberedName bn ex k] ∉ files) →
      ∃ k, counter ≤ k ∧ k < counter + fuel
        ∧ getUniqueFilePathLoop files dir bn ex fuel counter
            = dir ++ [mkNumberedName bn ex k]
        ∧ dir ++ [mkNumberedName bn ex k] ∉ files
        ∧ ∀ j, counter ≤ j → j < k → dir ++ [mkNumberedName bn ex j] ∈ files := by
  intro fuel
  induction fuel with
  | zero =>
    rintro counter ⟨k, hk1, hk2, _⟩
    omega
  | succ fuel ih =>
    rintro counter ⟨k0, hk01, hk02, hfree0⟩
    by_cases hmem : dir ++ [mkNumberedName bn ex counter] ∈ files
    · have hk0ne : k0 ≠ counter := by
        rintro rfl
        exact hfree0 hmem
      obtain ⟨k, hk1, hk2, heq, hfree, hall⟩ :=
        ih (counter + 1) ⟨k0, by omega, by omega, hfree0⟩
      refine ⟨k, by omega, by omega, ?_, hfree, ?_⟩
      · simp only [getUniqueFilePathLoop]
        rw [if_pos hmem]
        exact heq
      · intro j hj1 hj2
        by_cases hjc : j = counter
        · rw [hjc]; exact hmem
        · exact hall j (by omega) hj2
    · exact ⟨counter, Nat.le_refl _, by omega,
        by simp only [getUniqueFilePathLoop]; rw [if_neg hmem], hmem,
        fun j hj1 hj2 => by omega⟩

theorem exists_free_candidate (files : List FsPath) (dir : FsPath) (bn ex : String)
    (counter : Nat) :
    ∃ k, counter ≤ k ∧ k < counter + (files.length + 1)
      ∧ dir ++ [mkNumberedName bn ex k] ∉ files := by
  by_contra hcon
  push_neg at hcon
  have hmem : ∀ i < files.length + 1,
      dir ++ [mkNumberedName bn ex (counter + i)] ∈ files := by
    intro i hi
    exact hcon (counter + i) (by omega) (by omega)
  have hinj : Function.Injective
      (fun i : Nat => dir ++ [mkNumberedName bn ex (counter + i)]) := by
    intro i j hij
    have h1 : [mkNumberedName bn ex (counter + i)]
        = [mkNumberedName bn ex (counter + j)] := List.append_cancel_left hij
    have h2 := mkNumberedName_inj bn ex (List.singleton_injective h1)
    omega
  have hnodup : ((List.range (files.length + 1)).map
      (fun i => dir ++ [mkNumberedName bn ex (counter + i)])).Nodup :=
    (List.nodup_range _).map hinj
  have hsub : (List.range (files.length + 1)).map
      (fun i => dir ++ [mkNumberedName bn ex (counter + i)]) ⊆ files := by
    intro x hx
    obtain ⟨i, hi, rfl⟩ := List.mem_map.mp hx
    exact hmem i (List.mem_range.mp hi)
  have hle := (List.subperm_of_subset hnodup hsub).length_le
  simp at hle

/-- **C2.** The collision resolver returns the path unchanged when no file
exists at it; when one exists, it returns the first candidate with a
parenthesized counter before the extension, probed sequentially from `(1)`
with no gaps, that does not exist — in particular, when both `i18n/fr.json`
and `i18n/fr (1).json` exist, generating a path for `i18n/fr.json` yields
`i18n/fr (2).json`. -/
theorem getUniqueFilePath_first_free (files : List FsPath) (filePath : FsPath) :
    (filePath ∉ files → getUniqueFilePath files filePath = filePath) ∧
    (filePath ∈ files →
      ∃ k, 1 ≤ k
        ∧ getUniqueFilePath files filePath = numberedCandidate filePath k
        ∧ numberedCandidate filePath k ∉ files
        ∧ ∀ j, 1 ≤ j → j < k → numberedCandidate filePath j ∈ files) ∧
    getUniqueFilePath [["i18n", "fr.json"], ["i18n", "fr (1).json"]]
        ["i18n", "fr.json"]
      = ["i18n", "fr (2).json"] := by
  refine ⟨fun hfree => ?_, fun hmem => ?_, by decide⟩
  · simp only [getUniqueFilePath]
    rw [if_neg hfree]
  · simp only [getUniqueFilePath]
    rw [if_pos hmem]
    obtain ⟨k, hk1, _, heq, hfree, hall⟩ :=
      getUniqueFilePathLoop_spec files (dirname filePath)
        (stripExt (basename filePath) (extnameOf (basename filePath)))
        (extnameOf (basename filePath)) (files.length + 1) 1
        (exists_free_candidate _ _ _ _ 1)
    exact ⟨k, hk1, heq, hfree, hall⟩

theorem getUniqueFilePath_first_free_witness :
    getUniqueFilePath [["i18n", "fr.json"]] ["a", "b.json"] = ["a", "b.json"] :=
  (getUniqueFilePath_first_free [["i18n", "fr.json"]] ["a", "b.json"]).1 (by decide)

/-! ## `detectLanguagesFromProject` (language enumerator) -/

/-- One entry of a `readdirSync(..., { withFileTypes: true })` listing. -/
structure DirEntry where
  name : String
  isFile : Bool
  isDirectory : Bool
deriving DecidableEq, Repr

/-- The directory-listing capability: `none` models a thrown `readdirSync`
error (caught by the enumerator), `some entries` a successful listing. -/
abbrev ReadDir := FsPath → Option (List DirEntry)

/-- JS `Set.add`: append preserving first-insertion order, skipping an
already-present value. -/
def setAdd (acc : List String) (n : String) : List String :=
  if n ∈ acc then acc else acc ++ [n]

/-- The candidate codes collected into the `Set` by the scanning loop of
`detectLanguagesFromProject`, per detected structure kind
(`entry.name.endsWith(".json")` is modelled by suffix testing on the
character data). -/
def collectCandidates (readdir : ReadDir) (info : ProjectStructureInfo) :
    List String :=
  match info.type with
  | .FolderBased =>
    match readdir info.basePath with
    | none => []
    | some entries =>
      entries.foldl
        (fun acc e =>
          if e.isDirectory && languageCodeTest e.name then setAdd acc e.name
          else acc) []
  | .FileBased =>
    match readdir info.basePath with
    | none => []
    | some entries =>
      entries.foldl
        (fun acc e =>
          if e.isFile && ".json".data.isSuffixOf e.name.data then
            if languageCodeTest (stripExt e.name ".json") then
              setAdd acc (stripExt e.name ".json")
            else acc
          else acc) []
  | .Unknown => []

/-- `a.localeCompare(b, undefined, { sensitivity: "base" }) ≤ 0`, modelled for
ASCII strings as case-insensitive code-point comparison (for the ASCII
letters, digits and hyphens of language tags this agrees with the ICU root
collation at base sensitivity). -/
def charListLe : List Char → List Char → Bool
  | [], _ => true
  | _ :: _, [] => false
  | a :: as, b :: bs =>
    if a.toNat < b.toNat then true
    else if b.toNat < a.toNat then false
    else charListLe as bs

def localeLeP (a b : String) : Prop :=
  charListLe (a.data.map Char.toLower) (b.data.map Char.toLower) = true

instance : DecidableRel localeLeP := fun _ _ => by unfold localeLeP; infer_instance

theorem charListLe_total : ∀ x y, charListLe x y = true ∨ charListLe y x = true := by
  intro x
  induction x with
  | nil => intro y; left; rfl
  | cons a as ih =>
    intro y
    cases y with
    | nil => right; rfl
    | cons b bs =>
      by_cases hab : a.toNat < b.toNat
      · left; simp [charListLe, hab]
      · by_cases hba : b.toNat < a.toNat
        · right; simp [charListLe, hba]
        · rcases ih bs with h | h
          · left; simp [charListLe, hab, hba, h]
          · right; simp [charListLe, hab, hba, h]

theorem charListLe_trans :
    ∀ x y z, charListLe x y = true → charListLe y z = true →
      charListLe x z = true := by
  intro x
  induction x with
  | nil => intro y z _ _; rfl
  | cons a as ih =>
    intro y z h1 h2
    cases y with
    | nil => simp [charListLe] at h1
    | cons b bs =>
      cases z with
      | nil => simp [charListLe] at h2
      | cons c cs =>
        simp only [charListLe] at h1 h2 ⊢
        by_cases hab : a.toNat < b.toNat
        · by_cases hbc : b.toNat < c.toNat
          · rw [if_pos (by omega)]
          · by_cases hcb : c.toNat < b.toNat
            · rw [if_neg hbc, if_pos hcb] at h2
              exact Bool.noConfusion h2
            · rw [if_pos (by omega)]
        · by_cases hba : b.toNat < a.toNat
          · rw [if_neg hab, if_pos hba] at h1
            exact Bool.noConfusion h1
          · rw [if_neg hab, if_neg hba] at h1
            by_cases hbc : b.toNat < c.toNat
            · rw [if_pos (by omega)]
            · by_cases hcb : c.toNat < b.toNat
              · rw [if_neg hbc, if_pos hcb] at h2
                exact Bool.noConfusion h2
              · rw [if_neg hbc, if_neg hcb] at h2
                rw [if_neg (by omega), if_neg (by omega)]
                exact ih bs cs h1 h2

instance : IsTotal String localeLeP := ⟨fun _ _ => charListLe_total _ _⟩

instance : IsTrans String localeLeP :=
  ⟨fun _ _ _ h1 h2 => charListLe_trans _ _ _ h1 h2⟩

/-- `detectLanguagesFromProject`: collect candidates per the detected
structure, delete the source language from the set, and sort with the
locale-aware case-insensitive comparator (JS `Array.prototype.sort` with a
comparator is a stable sort, modelled by insertion sort). -/
def detectLanguagesFromProject (readdir : ReadDir) (sourceFilePath : FsPath) :
    List String :=
  List.insertionSort localeLeP
    (match (detectProjectStructure sourceFilePath).sourceLanguage with
     | some sl =>
       (collectCandidates readdir (detectProjectStructure sourceFilePath)).erase sl
     | none => collectCandidates readdir (detectProjectStructure sourceFilePath))

/-- The names of a directory listing (empty for a failed listing). -/
def listedNames (readdir : ReadDir) (dir : FsPath) : List String :=
  ((readdir dir).getD []).map (fun e => e.name)

/-- The listing used in concrete test cases: an `i18n` directory holding
`EN.json`, `RU.json`, `Fr.json` and `de.json`. -/
def readdirMixedCase : ReadDir := fun q =>
  if q = ["i18n"] then
    some [⟨"EN.json", true, false⟩, ⟨"RU.json", true, false⟩,
      ⟨"Fr.json", true, false⟩, ⟨"de.json", true, false⟩]
  else none

/-- A listing whose only entry differs from the source language only in
casing: `i18n` holding `EN.json`. -/
def readdirUpperEN : ReadDir := fun q =>
  if q = ["i18n"] then some [⟨"EN.json", true, false⟩] else none

theorem setAdd_nodup {acc : List String} (h : acc.Nodup) (n : String) :
    (setAdd acc n).Nodup := by
  unfold setAdd
  split
  · exact h
  · rename_i hn
    simp [List.nodup_append, h, hn]

theorem mem_setAdd {acc : List String} {n s : String} (h : s ∈ setAdd acc n) :
    s ∈ acc ∨ s = n := by
  unfold setAdd at h
  split at h
  · exact Or.inl h
  · rcases List.mem_append.mp h with h | h
    · exact Or.inl h
    · exact Or.inr (by simpa using h)

theorem foldl_setAdd_nodup (g : List String → DirEntry → List String)
    (hg : ∀ acc e, g acc e = acc ∨ ∃ n, g acc e = setAdd acc n) :
    ∀ (entries : List DirEntry) (init : List String), init.Nodup →
      (entries.foldl g init).Nodup := by
  intro entries
  induction entries with
  | nil => intro init h; simpa using h
  | cons e es ih =>
    intro init h
    rw [List.foldl_cons]
    apply ih
    rcases hg init e with he | ⟨n, he⟩
    · rw [he]; exact h
    · rw [he]; exact setAdd_nodup h n

theorem mem_foldl_setAdd (g : List String → DirEntry → List String)
    (P : DirEntry → String → Prop)
    (hg : ∀ acc e, g acc e = acc ∨ ∃ n, g acc e = setAdd acc n ∧ P e n) :
    ∀ (entries : List DirEntry) (init : List String) (s : String),
      s ∈ entries.foldl g init → s ∈ init ∨ ∃ e ∈ entries, P e s := by
  intro entries
  induction entries with
  | nil => intro init s h; exact Or.inl (by simpa using h)
  | cons e es ih =>
    intro init s h
    rw [List.foldl_cons] at h
    rcases ih _ s h with hs | ⟨e', he', hp⟩
    · rcases hg init e with he | ⟨n, he, hP⟩
      · rw [he] at hs
        exact Or.inl hs
      · rw [he] at hs
        rcases mem_setAdd hs with hs | rfl
        · exact Or.inl hs
        · exact Or.inr ⟨e, List.mem_cons_self _ _, hP⟩
    · exact Or.inr ⟨e', List.mem_cons_of_mem _ he', hp⟩

theorem collectCandidates_nodup (readdir : ReadDir) (info : ProjectStructureInfo) :
    (collectCandidates readdir info).Nodup := by
  rcases info with ⟨ty, bp, sl⟩
  cases ty
  case Unknown => exact List.nodup_nil
  case FolderBased =>
    simp only [collectCandidates]
    cases hread : readdir bp with
    | none => exact List.nodup_nil
    | some entries =>
      refine foldl_setAdd_nodup _ ?_ entries [] List.nodup_nil
      intro acc e
      dsimp only
      split
      · exact Or.inr ⟨e.name, rfl⟩
      · exact Or.inl rfl
  case FileBased =>
    simp only [collectCandidates]
    cases hread : readdir bp with
    | none => exact List.nodup_nil
    | some entries =>
      refine foldl_setAdd_nodup _ ?_ entries [] List.nodup_nil
      intro acc e
      dsimp only
      split
      · split
        · exact Or.inr ⟨stripExt e.name ".json", rfl⟩
        · exact Or.inl rfl
      · exact Or.inl rfl

theorem mem_collectCandidates (readdir : ReadDir) (info : ProjectStructureInfo)
    (s : String) (h : s ∈ collectCandidates readdir info) :
    s ∈ listedNames readdir info.basePath
      ∨ ∃ n ∈ listedNames readdir info.basePath, s = stripExt n ".json" := by
  rcases info with ⟨ty, bp, sl⟩
  cases ty
  case Unknown => simp [collectCandidates] at h
  case FolderBased =>
    simp only [collectCandidates] at h
    cases hread : readdir bp with
    | none => rw [hread] at h; simp at h
    | some entries =>
      rw [hread] at h
      have hm := mem_foldl_setAdd _ (fun e n => n = e.name) ?_ entries [] s h
      · rcases hm with hm | ⟨e, he, rfl⟩
        · simp at hm
        · left
          simp only [listedNames, hread, Option.getD_some]
          exact List.mem_map.mpr ⟨e, he, rfl⟩
      · intro acc e
        dsimp only
        split
        · exact Or.inr ⟨e.name, rfl, rfl⟩
        · exact Or.inl rfl
  case FileBased =>
    simp only [collectCandidates] at h
    cases hread : readdir bp with
    | none => rw [hread] at h; simp at h
    | some entries =>
      rw [hread] at h
      have hm := mem_foldl_setAdd _ (fun e n => n = stripExt e.name ".json") ?_
        entries [] s h
      · rcases hm with hm | ⟨e, he, rfl⟩
        · simp at hm
        · right
          refine ⟨e.name, ?_, rfl⟩
          simp only [listedNames, hread, Option.getD_some]
          exact List.mem_map.mpr ⟨e, he, rfl⟩
      · intro acc e
        dsimp only
        split
        · split
          · exact Or.inr ⟨stripExt e.name ".json", rfl, rfl⟩
          · exact Or.inl rfl
        · exact Or.inl rfl

theorem test_of_mem_collectCandidates (readdir : ReadDir)
    (info : ProjectStructureInfo) (s : String)
    (h : s ∈ collectCandidates readdir info) : languageCodeTest s = true := by
  rcases info with ⟨ty, bp, sl⟩
  cases ty
  case Unknown => simp [collectCandidates] at h
  case FolderBased =>
    simp only [collectCandidates] at h
    cases hread : readdir bp with
    | none => rw [hread] at h; simp at h
    | some entries =>
      rw [hread] at h
      have hm := mem_foldl_setAdd _ (fun _ n => languageCodeTest n = true) ?_
        entries [] s h
      · rcases hm with hm | ⟨e, _, hp⟩
        · simp at hm
        · exact hp
      · intro acc e
        dsimp only
        split
        · rename_i hcond
          exact Or.inr ⟨e.name, rfl, (Bool.and_eq_true _ _).mp hcond |>.2⟩
        · exact Or.inl rfl
  case FileBased =>
    simp only [collectCandidates] at h
    cases hread : readdir bp with
    | none => rw [hread] at h; simp at h
    | some entries =>
      rw [hread] at h
      have hm := mem_foldl_setAdd _ (fun _ n => languageCodeTest n = true) ?_
        entries [] s h
      · rcases hm with hm | ⟨e, _, hp⟩
        · simp at hm
        · exact hp
      · intro acc e
        dsimp only
        split
        · split
          · rename_i hcond
            exact Or.inr ⟨stripExt e.name ".json", rfl, hcond⟩
          · exact Or.inl rfl
        · exact Or.inl rfl

theorem mem_codes_of_mem_detectLanguages (readdir : ReadDir) (p : FsPath)
    (s : String) (h : s ∈ detectLanguagesFromProject readdir p) :
    s ∈ collectCandidates readdir (detectProjectStructure p) := by
  unfold detectLanguagesFromProject at h
  rcases hsl : (detectProjectStructure p).sourceLanguage with _ | sl
  · rw [hsl] at h
    exact (List.perm_insertionSort localeLeP _).mem_iff.mp h
  · rw [hsl] at h
    exact List.erase_subset sl _ ((List.perm_insertionSort localeLeP _).mem_iff.mp h)

/-! ## Claims about the language enumerator -/

/-- **C8.** When the directory listing of the detected `basePath` fails, the
enumerator returns normally with an empty sequence instead of propagating the
failure. -/
theorem detectLanguages_scan_failure (readdir : ReadDir) (p : FsPath)
    (h : readdir (detectProjectStructure p).basePath = none) :
    detectLanguagesFromProject readdir p = [] := by
  have hc : collectCandidates readdir (detectProjectStructure p) = [] := by
    unfold collectCandidates
    rcases hd : detectProjectStructure p with ⟨ty, bp, sl⟩
    rw [hd] at h
    cases ty <;> simp_all
  unfold detectLanguagesFromProject
  rw [hc]
  cases hsl : (detectProjectStructure p).sourceLanguage <;> simp

theorem detectLanguages_scan_failure_witness :
    detectLanguagesFromProject (fun _ => none) ["i18n", "en.json"] = [] :=
  detectLanguages_scan_failure (fun _ => none) ["i18n", "en.json"] rfl

/-- **C4 (amended).** The enumerator deletes the source language from the
candidate set by exact string comparison (JS `Set.delete`), so the exact
source-language string never appears in the result; a candidate that differs
from the source language only in casing is NOT removed (see the
counterexample), so the deletion is not case-insensitive. -/
theorem detectLanguages_excludes_exact_source (readdir : ReadDir) (p : FsPath)
    (sl : String) (h : (detectProjectStructure p).sourceLanguage = some sl) :
    sl ∉ detectLanguagesFromProject readdir p := by
  intro hmem
  unfold detectLanguagesFromProject at hmem
  rw [h] at hmem
  have hmem2 : sl ∈ (collectCandidates readdir (detectProjectStructure p)).erase sl :=
    (List.perm_insertionSort localeLeP _).mem_iff.mp hmem
  have hnd := collectCandidates_nodup readdir (detectProjectStructure p)
  exact (hnd.mem_erase_iff.mp hmem2).1 rfl

theorem detectLanguages_excludes_exact_source_witness :
    "EN" ∉ detectLanguagesFromProject readdirMixedCase ["i18n", "EN.json"] :=
  detectLanguages_excludes_exact_source readdirMixedCase ["i18n", "EN.json"] "EN"
    (by decide)

/-- **C4, counterexample to the claim as stated.** With the file `EN.json` on
disk and the source path `i18n/en.json`, the detected source language is
`"en"` but the enumerator returns `["EN"]`: the entry `"EN"` is equal to the
source language under case-insensitive comparison, yet it is returned —
deletion is by exact match, not case-insensitive. -/
theorem detectLanguages_case_delete_counterexample :
    (detectProjectStructure ["i18n", "en.json"]).sourceLanguage = some "en" ∧
    detectLanguagesFromProject readdirUpperEN ["i18n", "en.json"] = ["EN"] ∧
    "EN".data.map Char.toLower = "en".data.map Char.toLower ∧
    "EN" ≠ "en" := by
  refine ⟨by decide, by decide, by decide, by decide⟩

/-- **C5.** The enumerator's result is sorted by the locale-aware
case-insensitive comparator, and every returned entry is an on-disk name (or
an on-disk file name with `.json` stripped), so the original casing is
preserved; concretely, scanning `EN.json`, `RU.json`, `Fr.json`, `de.json`
from `EN.json` yields exactly `["de", "Fr", "RU"]`. -/
theorem detectLanguages_sorted_case_preserving (readdir : ReadDir) (p : FsPath) :
    List.Pairwise localeLeP (detectLanguagesFromProject readdir p) ∧
    (∀ s ∈ detectLanguagesFromProject readdir p,
        s ∈ listedNames readdir (detectProjectStructure p).basePath
          ∨ ∃ n ∈ listedNames readdir (detectProjectStructure p).basePath,
              s = stripExt n ".json") ∧
    detectLanguagesFromProject readdirMixedCase ["i18n", "EN.json"]
      = ["de", "Fr", "RU"] := by
  refine ⟨?_, ?_, by decide⟩
  · unfold detectLanguagesFromProject
    exact List.sorted_insertionSort localeLeP _
  · intro s hs
    exact mem_collectCandidates readdir (detectProjectStructure p) s
      (mem_codes_of_mem_detectLanguages readdir p s hs)

theorem detectLanguages_sorted_case_preserving_witness :
    "de" ∈ listedNames readdirMixedCase
        (detectProjectStructure ["i18n", "EN.json"]).basePath
      ∨ ∃ n ∈ listedNames readdirMixedCase
          (detectProjectStructure ["i18n", "EN.json"]).basePath,
          "de" = stripExt n ".json" :=
  (detectLanguages_sorted_case_preserving readdirMixedCase ["i18n", "EN.json"]).2.1
    "de" (by decide)

/-- **C10.** Every entry returned by the enumerator passes
`validateLanguageCode`: candidates are filtered with the same regex the
validator uses, and a matching string is nonempty. -/
theorem detectLanguages_all_validate (readdir : ReadDir) (p : FsPath) :
    ∀ s ∈ detectLanguagesFromProject readdir p, validateLanguageCode s = true := by
  intro s hs
  have htest := test_of_mem_collectCandidates readdir (detectProjectStructure p) s
    (mem_codes_of_mem_detectLanguages readdir p s hs)
  have hne := languageCodeTest_ne_nil htest
  unfold validateLanguageCode
  rw [htest]
  have hemp : s.isEmpty = false := by
    cases hie : s.isEmpty
    · rfl
    · exact absurd (congrArg String.data ((String.isEmpty_iff s).mp hie)) hne
  rw [hemp]
  rfl

theorem detectLanguages_all_validate_witness :
    validateLanguageCode "de" = true :=
  detectLanguages_all_validate readdirMixedCase ["i18n", "EN.json"] "de" (by decide)

/-! ## Character-level facts about ASCII case conversion -/

theorem char_eq_of_toNat_eq {c d : Char} (h : c.toNat = d.toNat) : c = d := by
  have h2 := congrArg Char.ofNat h
  rwa [Char.ofNat_toNat, Char.ofNat_toNat] at h2

theorem char_isUpper_iff (c : Char) :
    c.isUpper = true ↔ 65 ≤ c.toNat ∧ c.toNat ≤ 90 := by
  simp [Char.isUpper, ge_iff_le, UInt32.le_def, BitVec.le_def, Char.toNat,
    UInt32.toNat]

theorem char_isLower_iff (c : Char) :
    c.isLower = true ↔ 97 ≤ c.toNat ∧ c.toNat ≤ 122 := by
  simp [Char.isLower, ge_iff_le, UInt32.le_def, BitVec.le_def, Char.toNat,
    UInt32.toNat]

theorem char_isDigit_iff (c : Char) :
    c.isDigit = true ↔ 48 ≤ c.toNat ∧ c.toNat ≤ 57 := by
  simp [Char.isDigit, ge_iff_le, UInt32.le_def, BitVec.le_def, Char.toNat,
    UInt32.toNat]

theorem char_toNat_toLower (c : Char) :
    (Char.toLower c).toNat
      = if 65 ≤ c.toNat ∧ c.toNat ≤ 90 then c.toNat + 32 else c.toNat := by
  unfold Char.toLower
  by_cases h : 65 ≤ c.toNat ∧ c.toNat ≤ 90
  · rw [if_pos h, if_pos ⟨h.1, h.2⟩]
    exact char_toNat_ofNat_of_lt (by omega)
  · rw [if_neg h, if_neg (fun hc => h ⟨hc.1, hc.2⟩)]

theorem char_toNat_toUpper (c : Char) :
    (Char.toUpper c).toNat
      = if 97 ≤ c.toNat ∧ c.toNat ≤ 122 then c.toNat - 32 else c.toNat := by
  unfold Char.toUpper
  by_cases h : 97 ≤ c.toNat ∧ c.toNat ≤ 122
  · rw [if_pos h, if_pos ⟨h.1, h.2⟩]
    exact char_toNat_ofNat_of_lt (by omega)
  · rw [if_neg h, if_neg (fun hc => h ⟨hc.1, hc.2⟩)]

theorem isAlpha_toLower {c : Char} (h : c.isAlpha = true) :
    (Char.toLower c).isAlpha = true := by
  unfold Char.isAlpha at h ⊢
  rw [Bool.or_eq_true] at h ⊢
  rw [char_isUpper_iff, char_isLower_iff] at h ⊢
  rw [char_toNat_toLower]
  rcases h with h | h
  · right
    rw [if_pos h]
    omega
  · right
    rw [if_neg (by omega)]
    omega

theorem isAlpha_toUpper {c : Char} (h : c.isAlpha = true) :
    (Char.toUpper c).isAlpha = true := by
  unfold Char.isAlpha at h ⊢
  rw [Bool.or_eq_true] at h ⊢
  rw [char_isUpper_iff, char_isLower_iff] at h ⊢
  rw [char_toNat_toUpper]
  rcases h with h | h
  · left
    rw [if_neg (by omega)]
    omega
  · left
    rw [if_pos h]
    omega

theorem toUpper_of_isDigit {c : Char} (h : c.isDigit = true) : Char.toUpper c = c := by
  rw [char_isDigit_iff] at h
  apply char_eq_of_toNat_eq
  rw [char_toNat_toUpper, if_neg (by omega)]

theorem toLower_toLower (c : Char) :
    Char.toLower (Char.toLower c) = Char.toLower c := by
  by_cases h : 65 ≤ c.toNat ∧ c.toNat ≤ 90
  · apply char_eq_of_toNat_eq
    rw [char_toNat_toLower (Char.toLower c), char_toNat_toLower c, if_pos h,
      if_neg (by omega)]
  · have he : Char.toLower c = c :=
      char_eq_of_toNat_eq (by rw [char_toNat_toLower, if_neg h])
    rw [he]
    exact he

theorem toUpper_toUpper (c : Char) :
    Char.toUpper (Char.toUpper c) = Char.toUpper c := by
  by_cases h : 97 ≤ c.toNat ∧ c.toNat ≤ 122
  · apply char_eq_of_toNat_eq
    rw [char_toNat_toUpper (Char.toUpper c), char_toNat_toUpper c, if_pos h,
      if_neg (by omega)]
  · have he : Char.toUpper c = c :=
      char_eq_of_toNat_eq (by rw [char_toNat_toUpper, if_neg h])
    rw [he]
    exact he

theorem alpha_ne_hyphen {c : Char} (h : c.isAlpha = true) : c ≠ '-' := by
  intro he
  rw [he] at h
  exact absurd h (by decide)

theorem digit_ne_hyphen {c : Char} (h : c.isDigit = true) : c ≠ '-' := by
  intro he
  rw [he] at h
  exact absurd h (by decide)

/-! ## Shape preservation of the tag parts under normalization -/

theorem no_hyphen_of_all_alpha {l : List Char} (h : l.all Char.isAlpha = true) :
    ∀ c ∈ l, c ≠ '-' :=
  fun c hc => alpha_ne_hyphen (List.all_eq_true.mp h c hc)

theorem isLanguagePart_map_toLower {l : List Char} (h : isLanguagePart l = true) :
    isLanguagePart (l.map Char.toLower) = true := by
  unfold isLanguagePart at h ⊢
  rw [Bool.and_eq_true] at h ⊢
  refine ⟨by simpa using h.1, ?_⟩
  rw [List.all_map, List.all_eq_true]
  intro c hc
  exact isAlpha_toLower (List.all_eq_true.mp h.2 c hc)

theorem length_capitalizeScript (s : List Char) :
    (capitalizeScript s).length = s.length := by
  cases s <;> simp [capitalizeScript]

theorem isScriptPart_capitalizeScript {s : List Char} (h : isScriptPart s = true) :
    isScriptPart (capitalizeScript s) = true := by
  unfold isScriptPart at h ⊢
  rw [Bool.and_eq_true] at h ⊢
  refine ⟨by simpa [length_capitalizeScript] using h.1, ?_⟩
  cases s with
  | nil => rfl
  | cons c cs =>
    have h2 := h.2
    rw [List.all_cons, Bool.and_eq_true] at h2
    simp only [capitalizeScript, List.all_cons, Bool.and_eq_true]
    refine ⟨isAlpha_toUpper h2.1, ?_⟩
    rw [List.all_map, List.all_eq_true]
    intro x hx
    exact isAlpha_toLower (List.all_eq_true.mp h2.2 x hx)

theorem all_alpha_capitalizeScript {s : List Char} (h : s.all Char.isAlpha = true) :
    (capitalizeScript s).all Char.isAlpha = true := by
  cases s with
  | nil => rfl
  | cons c cs =>
    rw [List.all_cons, Bool.and_eq_true] at h
    simp only [capitalizeScript, List.all_cons, Bool.and_eq_true]
    refine ⟨isAlpha_toUpper h.1, ?_⟩
    rw [List.all_map, List.all_eq_true]
    intro x hx
    exact isAlpha_toLower (List.all_eq_true.mp h.2 x hx)

theorem isRegionPart_map_toUpper {r : List Char} (h : isRegionPart r = true) :
    isRegionPart (r.map Char.toUpper) = true := by
  unfold isRegionPart at h ⊢
  rw [Bool.or_eq_true] at h ⊢
  rcases h with h | h
  · left
    rw [Bool.and_eq_true] at h ⊢
    refine ⟨by simpa using h.1, ?_⟩
    rw [List.all_map, List.all_eq_true]
    intro c hc
    exact isAlpha_toUpper (List.all_eq_true.mp h.2 c hc)
  · right
    rw [Bool.and_eq_true] at h
    have hmap : r.map Char.toUpper = r := by
      have hcongr : r.map Char.toUpper = r.map id :=
        List.map_congr_left fun a ha =>
          toUpper_of_isDigit (List.all_eq_true.mp h.2 a ha)
      rw [hcongr, List.map_id]
    rw [hmap, Bool.and_eq_true]
    exact h

theorem not_isScriptPart_map_toUpper {r : List Char} (h : isRegionPart r = true) :
    isScriptPart (r.map Char.toUpper) = false := by
  have hlen : r.length = 2 ∨ r.length = 3 := by
    unfold isRegionPart at h
    rw [Bool.or_eq_true, Bool.and_eq_true, Bool.and_eq_true] at h
    rcases h with ⟨h1, _⟩ | ⟨h1, _⟩
    · simpa using h1
    · right
      simpa using h1
  unfold isScriptPart
  rcases hlen with h2 | h2 <;> simp [List.length_map, h2]

theorem no_hyphen_of_isRegionPart {r : List Char} (h : isRegionPart r = true) :
    ∀ c ∈ r, c ≠ '-' := by
  unfold isRegionPart at h
  rw [Bool.or_eq_true, Bool.and_eq_true, Bool.and_eq_true] at h
  rcases h with ⟨_, h2⟩ | ⟨_, h2⟩
  · exact no_hyphen_of_all_alpha h2
  · exact fun c hc => digit_ne_hyphen (List.all_eq_true.mp h2 c hc)

theorem no_hyphen_of_isLanguagePart {l : List Char} (h : isLanguagePart l = true) :
    ∀ c ∈ l, c ≠ '-' := by
  unfold isLanguagePart at h
  rw [Bool.and_eq_true] at h
  exact no_hyphen_of_all_alpha h.2

theorem no_hyphen_of_isScriptPart {s : List Char} (h : isScriptPart s = true) :
    ∀ c ∈ s, c ≠ '-' := by
  unfold isScriptPart at h
  rw [Bool.and_eq_true] at h
  exact no_hyphen_of_all_alpha h.2

/-! ## Splitting the normalized tag -/

theorem splitOnHyphen_no_hyphen (l : List Char) (h : ∀ c ∈ l, c ≠ '-') :
    splitOnHyphen l = [l] := by
  induction l with
  | nil => rfl
  | cons c cs ih =>
    have hc : c ≠ '-' := h c (List.mem_cons_self _ _)
    have ih' := ih fun x hx => h x (List.mem_cons_of_mem _ hx)
    simp only [splitOnHyphen, if_neg hc, ih']

theorem splitOnHyphen_append (a rest : List Char) (h : ∀ c ∈ a, c ≠ '-') :
    splitOnHyphen (a ++ '-' :: rest) = a :: splitOnHyphen rest := by
  induction a with
  | nil =>
    simp only [List.nil_append, splitOnHyphen, if_true]
  | cons c cs ih =>
    have hc : c ≠ '-' := h c (List.mem_cons_self _ _)
    have ih' := ih fun x hx => h x (List.mem_cons_of_mem _ hx)
    simp only [List.cons_append, splitOnHyphen, if_neg hc, List.append_eq, ih']

theorem parseTag_shapes {s : List Char} {t : TagParts} (h : parseTag s = some t) :
    isLanguagePart t.language = true
      ∧ (∀ x, t.script = some x → isScriptPart x = true)
      ∧ (∀ x, t.region = some x → isRegionPart x = true) := by
  unfold parseTag at h
  split at h
  · split at h
    · rename_i hl
      cases h
      exact ⟨hl, fun x hx => Option.noConfusion hx, fun x hx => Option.noConfusion hx⟩
    · exact Option.noConfusion h
  · split at h
    · rename_i hl
      split at h
      · rename_i hx
        cases h
        exact ⟨hl, fun x hx2 => by cases hx2; exact hx,
          fun x hx2 => Option.noConfusion hx2⟩
      · split at h
        · rename_i hx
          cases h
          exact ⟨hl, fun x hx2 => Option.noConfusion hx2,
            fun x hx2 => by cases hx2; exact hx⟩
        · exact Option.noConfusion h
    · exact Option.noConfusion h
  · split at h
    · rename_i hcond
      rw [Bool.and_eq_true, Bool.and_eq_true] at hcond
      cases h
      exact ⟨hcond.1.1, fun x hx2 => by cases hx2; exact hcond.1.2,
        fun x hx2 => by cases hx2; exact hcond.2⟩
    · exact Option.noConfusion h
  · exact Option.noConfusion h

theorem parseTag_normalizeParts {tp : TagParts}
    (hl : isLanguagePart tp.language = true)
    (hs : ∀ x, tp.script = some x → isScriptPart x = true)
    (hr : ∀ x, tp.region = some x → isRegionPart x = true) :
    parseTag (normalizeParts tp)
      = some ⟨tp.language.map Char.toLower, tp.script.map capitalizeScript,
          tp.region.map (fun r => r.map Char.toUpper)⟩ := by
  rcases tp with ⟨l, s, r⟩
  have hl' := isLanguagePart_map_toLower hl
  have hnl : ∀ c ∈ l.map Char.toLower, c ≠ '-' := no_hyphen_of_isLanguagePart hl'
  cases s with
  | none =>
    cases r with
    | none =>
      simp only [normalizeParts, List.append_nil]
      simp [parseTag, splitOnHyphen_no_hyphen _ hnl, hl']
    | some r0 =>
      have hr0 := hr r0 rfl
      have hr' := isRegionPart_map_toUpper hr0
      have hscr := not_isScriptPart_map_toUpper hr0
      simp only [normalizeParts, List.append_nil]
      simp [parseTag, splitOnHyphen_append _ _ hnl,
        splitOnHyphen_no_hyphen _ (no_hyphen_of_isRegionPart hr'), hl', hscr, hr']
  | some s0 =>
    have hs0 := hs s0 rfl
    have hcap := isScriptPart_capitalizeScript hs0
    have hncap : ∀ c ∈ capitalizeScript s0, c ≠ '-' :=
      no_hyphen_of_isScriptPart hcap
    cases r with
    | none =>
      simp only [normalizeParts, List.append_nil]
      simp [parseTag, splitOnHyphen_append _ _ hnl,
        splitOnHyphen_no_hyphen _ hncap, hl', hcap]
    | some r0 =>
      have hr0 := hr r0 rfl
      have hr' := isRegionPart_map_toUpper hr0
      have hassoc : l.map Char.toLower ++ '-' :: capitalizeScript s0
            ++ '-' :: r0.map Char.toUpper
          = l.map Char.toLower
              ++ '-' :: (capitalizeScript s0 ++ '-' :: r0.map Char.toUpper) := by
        simp
      simp only [normalizeParts, hassoc]
      simp [parseTag, splitOnHyphen_append _ _ hnl,
        splitOnHyphen_append _ _ hncap,
        splitOnHyphen_no_hyphen _ (no_hyphen_of_isRegionPart hr'), hl', hcap, hr']

theorem normalizeParts_idem (tp : TagParts) :
    normalizeParts ⟨tp.language.map Char.toLower, tp.script.map capitalizeScript,
        tp.region.map (fun r => r.map Char.toUpper)⟩
      = normalizeParts tp := by
  rcases tp with ⟨l, s, r⟩
  have h1 : (l.map Char.toLower).map Char.toLower = l.map Char.toLower := by
    rw [List.map_map]
    exact List.map_congr_left fun a _ => toLower_toLower a
  have h2 : ∀ x : List Char, capitalizeScript (capitalizeScript x)
      = capitalizeScript x := by
    intro x
    cases x with
    | nil => rfl
    | cons c cs =>
      simp only [capitalizeScript, List.map_map]
      rw [toUpper_toUpper]
      congr 1
      exact List.map_congr_left fun a _ => toLower_toLower a
  have h3 : ∀ x : List Char, (x.map Char.toUpper).map Char.toUpper
      = x.map Char.toUpper := by
    intro x
    rw [List.map_map]
    exact List.map_congr_left fun a _ => toUpper_toUpper a
  unfold normalizeParts
  cases s <;> cases r <;> simp [h1, h2, h3]

/-! ## Claims about normalization -/

/-- Modelled from the spec: the canonical form of a matching tag — primary
language lowercased, script subtag with capitalized first letter and lowercase
remainder, region subtag all-uppercase — joined with hyphens. -/
def specCanonicalForm (t : TagParts) : List Char :=
  joinHyphen ([t.language.map Char.toLower]
    ++ (match t.script with
        | none => []
        | some s => [capitalizeScript s])
    ++ (match t.region with
        | none => []
        | some r => [r.map Char.toUpper]))

/-- **C6.** `normalizeLanguageCode` returns the spec's canonical form on every
string matching the tag grammar and returns every non-matching string
unchanged (it is total, hence never throws); in particular
`normalize "ZH-hans-CN" = "zh-Hans-CN"` and
`normalize "invalid-code" = "invalid-code"`. -/
theorem normalize_canonical_or_id :
    (∀ code t, parseTag code.data = some t →
        normalizeLanguageCode code = String.mk (specCanonicalForm t)) ∧
    (∀ code, parseTag code.data = none → normalizeLanguageCode code = code) ∧
    normalizeLanguageCode "ZH-hans-CN" = "zh-Hans-CN" ∧
    normalizeLanguageCode "invalid-code" = "invalid-code" := by
  refine ⟨?_, ?_, by decide, by decide⟩
  · intro code t h
    unfold normalizeLanguageCode
    rw [h]
    rcases t with ⟨l, s, r⟩
    unfold normalizeParts specCanonicalForm
    cases s <;> cases r <;> simp [joinHyphen]
  · intro code h
    unfold normalizeLanguageCode
    rw [h]

theorem normalize_canonical_or_id_witness :
    normalizeLanguageCode "ZH-hans-CN"
      = String.mk (specCanonicalForm
          ⟨['Z', 'H'], some ['h', 'a', 'n', 's'], some ['C', 'N']⟩) :=
  normalize_canonical_or_id.1 "ZH-hans-CN"
    ⟨['Z', 'H'], some ['h', 'a', 'n', 's'], some ['C', 'N']⟩ (by decide)

/-- **C7.** `normalizeLanguageCode` is idempotent on every tag accepted by
`validateLanguageCode`. -/
theorem normalize_idempotent (t : String) (h : validateLanguageCode t = true) :
    normalizeLanguageCode (normalizeLanguageCode t) = normalizeLanguageCode t := by
  have htest : languageCodeTest t = true := ((Bool.and_eq_true _ _).mp h).2
  unfold languageCodeTest at htest
  obtain ⟨tp, htp⟩ := Option.isSome_iff_exists.mp htest
  obtain ⟨hl, hs, hr⟩ := parseTag_shapes htp
  have hn1 : normalizeLanguageCode t = String.mk (normalizeParts tp) := by
    unfold normalizeLanguageCode
    rw [htp]
  rw [hn1]
  have hp2 : parseTag (String.mk (normalizeParts tp)).data
      = some ⟨tp.language.map Char.toLower, tp.script.map capitalizeScript,
          tp.region.map (fun r => r.map Char.toUpper)⟩ :=
    parseTag_normalizeParts hl hs hr
  unfold normalizeLanguageCode
  rw [hp2]
  exact congrArg String.mk (normalizeParts_idem tp)

theorem normalize_idempotent_witness :
    normalizeLanguageCode (normalizeLanguageCode "ZH-hans-CN")
      = normalizeLanguageCode "ZH-hans-CN" :=
  normalize_idempotent "ZH-hans-CN" (by decide)

end I18n
